import Mathlib

/- Shallow embedding of the RIS analysis pipeline (src/app1.py).

   Pandas cells are modeled as Option String (none is a NaN cell); Python
   str() of a NaN cell yields the string "nan".  Quantities are integers;
   the float results of the percentage divisions are modeled as exact
   rationals extended with explicit infinity and NaN markers. -/

/-- Python whitespace characters (the Latin-1 part of str.isspace and of
the regex class backslash-s): space, tab, newline, carriage return,
vertical tab, form feed, next line, no-break space. -/
def pyIsSpace (c : Char) : Bool :=
  c == ' ' || c == '\t' || c == '\n' || c == '\r' || c == '\x0b' ||
    c == '\x0c' || c == '\x85' || c == '\xa0'

/-- Remove the trailing run of characters satisfying q (the tail half of
Python str.strip). -/
def dropTrailWhile (q : Char → Bool) : List Char → List Char
  | [] => []
  | c :: cs =>
    let r := dropTrailWhile q cs
    if r.isEmpty && q c then [] else c :: r

/-- Python str.strip() on a character list: drop leading and trailing
whitespace. -/
def pyStripL (l : List Char) : List Char :=
  dropTrailWhile pyIsSpace (l.dropWhile pyIsSpace)

/-- Python str.strip() on a string. -/
def pyStrip (s : String) : String := String.mk (pyStripL s.data)

/-- ASCII lowercase-to-uppercase letter pairs (Python str.upper and
str.lower restricted to the ASCII letters that occur in this data). -/
def lowerUpperPairs : List (Char × Char) :=
  [('a', 'A'), ('b', 'B'), ('c', 'C'), ('d', 'D'), ('e', 'E'), ('f', 'F'),
   ('g', 'G'), ('h', 'H'), ('i', 'I'), ('j', 'J'), ('k', 'K'), ('l', 'L'),
   ('m', 'M'), ('n', 'N'), ('o', 'O'), ('p', 'P'), ('q', 'Q'), ('r', 'R'),
   ('s', 'S'), ('t', 'T'), ('u', 'U'), ('v', 'V'), ('w', 'W'), ('x', 'X'),
   ('y', 'Y'), ('z', 'Z')]

/-- Python str.upper, per character. -/
def asciiUpper (c : Char) : Char := (lowerUpperPairs.lookup c).getD c

def upperLowerPairs : List (Char × Char) := lowerUpperPairs.map (fun p => (p.2, p.1))

/-- Python str.lower, per character. -/
def asciiLower (c : Char) : Char := (upperLowerPairs.lookup c).getD c

/-- normalize (app1.py line 14), the join-key normalization: strip,
uppercase, and replace an empty result by NA. -/
def joinNormalize (s : String) : Option String :=
  let t := String.mk ((pyStripL s.data).map asciiUpper)
  if t = "" then none else some t

/-- Python str() of a possibly-missing cell: a NaN cell prints as "nan". -/
def pyStr : Option String → String
  | none => "nan"
  | some s => s

/-- Join-key normalization of a raw cell: astype(str) first, as the code
does on whole columns. -/
def joinNormalizeOpt (v : Option String) : Option String := joinNormalize (pyStr v)

/-- The replace of a no-break space by an ordinary space, per character. -/
def nbspFix (c : Char) : Char := if c == '\xa0' then ' ' else c

/-- Regex word characters: ASCII letters, digits, underscore. -/
def isWordChar (c : Char) : Bool := c.isAlphanum || c == '_'

/-- re.sub of one-or-more whitespace by a single space: collapse every
whitespace run to one space; the flag records whether the previous
character belonged to a run. -/
def collapseAux : Bool → List Char → List Char
  | _, [] => []
  | prev, c :: cs =>
    if pyIsSpace c then
      if prev then collapseAux true cs else ' ' :: collapseAux true cs
    else c :: collapseAux false cs

/-- normalize_text (app1.py line 18) on a string: replace NBSP by space,
lowercase, strip, drop punctuation (keep word characters and whitespace),
collapse whitespace runs, strip again, then remove all spaces. -/
def normalizeTextStr (s : String) : String :=
  let l1 := s.data.map nbspFix
  let l2 := l1.map asciiLower
  let l3 := pyStripL l2
  let l4 := l3.filter (fun c => isWordChar c || pyIsSpace c)
  let l5 := pyStripL (collapseAux false l4)
  String.mk (l5.filter (fun c => c != ' '))

/-- normalize_text including its pd.isna branch: a missing value
normalizes to the empty string. -/
def normalize_text : Option String → String
  | none => ""
  | some s => normalizeTextStr s

/-- Python dict insertion: a later assignment overwrites an earlier one
with the same key. -/
def dictInsert (m : List (String × String)) (k v : String) : List (String × String) :=
  (m.filter (fun p => !(p.1 == k))) ++ [(k, v)]

/-- Python dict lookup. -/
def dictGet (m : List (String × String)) (k : String) : Option String :=
  (m.find? (fun p => p.1 == k)).map (fun p => p.2)

/-- canon_map (app1.py line 98): map normalize_text of each state to the
stripped state, skipping states whose normalization is empty. -/
def canon_map (states : List String) : List (String × String) :=
  states.foldl
    (fun m s =>
      if normalizeTextStr s = "" then m
      else dictInsert m (normalizeTextStr s) (pyStrip s)) []

/-- fc_states (app1.py line 97): dropna, stringize, strip the FC State
column. -/
def fc_states (col : List (Option String)) : List String :=
  (col.filterMap id).map pyStrip

/-- safe_correct (app1.py line 28): replace a raw value by the canonical
state name when its normalization is a key of the map, else keep it. -/
def safe_correct (raw : Option String) (m : List (String × String)) : Option String :=
  match dictGet m (normalize_text raw) with
  | some v => some v
  | none => raw

/-- The comparison normalization of the RIS Status lambda (app1.py line
115): str(x).strip() followed by removal of every ordinary space. -/
def normCompare (s : String) : String :=
  String.mk ((pyStripL s.data).filter (fun c => c != ' '))

/-- RIS Status (app1.py line 114): case-sensitive equality of the
stringified original ship state and fulfillment state, after strip and
space removal; a NaN cell stringifies to "nan". -/
def risStatus (shipOrig fulfState : Option String) : String :=
  if normCompare (pyStr shipOrig) = normCompare (pyStr fulfState) then "RIS" else "Non RIS"

/-- LOCAL_MAP (app1.py line 172). -/
def LOCAL_MAP : List (String × List String) :=
  [("DED3", ["DEL4", "DEL5", "DED4"]),
   ("DED5", ["DEL4", "DEL5", "DED4"]),
   ("ISK3", ["BOM5", "BOM7", "PNQ3"]),
   ("BLR4", ["BLR7", "BLR8"])]

/-- The fulfillment-center id as used by ris_status_from_ixd:
str(value).strip().upper(). -/
def fcNormalize (fcid : Option String) : String :=
  String.mk ((pyStripL (pyStr fcid).data).map asciiUpper)

/-- ris_status_from_ixd (app1.py line 179).  The receive centre is
matched against the LOCAL_MAP keys exactly as stored; the
fulfillment-center id is stripped and uppercased before the membership
test in the mapped list. -/
def ris_status_from_ixd (rc fcid : Option String) : String :=
  match rc with
  | none => "Non RIS"
  | some rcs =>
    match LOCAL_MAP.lookup rcs with
    | none => "Non RIS"
    | some fcs => if fcs.contains (fcNormalize fcid) then "RIS" else "Non RIS"

/-- One row of the FC reference table. -/
structure FCRow where
  fc : Option String
  state : Option String
  cluster : Option String
deriving DecidableEq

/-- The FC merge (app1.py line 86) seen from one order row: the
fulfillment states of every FC row whose normalized code equals the
order's normalized code; an unmatched order keeps a single row with a
null fulfillment state (left join). -/
def fcLookupStates (fcid : Option String) (fcrows : List FCRow) : List (Option String) :=
  match fcrows.filter (fun r => joinNormalizeOpt r.fc == joinNormalizeOpt fcid) with
  | [] => [none]
  | ms => ms.map (fun r => r.state)

/-- One raw order row as consumed by the validation-and-join prefix. -/
structure RawRow where
  fcid : Option String
  shipState : Option String
  qty : Int
deriving DecidableEq

inductive PipeErr
  | missingKey
  | fcMissingCols (cols : List String)
deriving DecidableEq

def required_cols : List String := ["FC", "State", "Cluster"]

/-- missing (app1.py line 72): the required FC columns absent from the FC
file, in declaration order. -/
def missingFrom (fcCols : List String) : List String :=
  required_cols.filter (fun c => decide (¬ c ∈ fcCols))

/-- The validation prefix of the processing block (app1.py lines 64-119):
the Working key-column check and the FC schema check run and stop the run
before any join or classification happens; on success the rows are joined
and classified. -/
def runPipeline (wCols fcCols : List String) (working : List RawRow)
    (fcrows : List FCRow) : Except PipeErr (List String) :=
  if !(wCols.contains "fulfillment-center-id") then .error .missingKey
  else if missingFrom fcCols = [] then
    .ok (working.flatMap (fun r =>
      (fcLookupStates r.fcid fcrows).map (fun fs => risStatus r.shipState fs)))
  else .error (.fcMissingCols (missingFrom fcCols))

/-- One enriched order line as consumed by the aggregation step: the three
grouping keys (nullable), the classification label, and the quantity. -/
structure ORow where
  brand : Option String
  fstate : Option String
  sstate : Option String
  status : String
  qty : Int
deriving DecidableEq

def sumBy {α : Type _} (l : List α) (f : α → Int) : Int := (l.map f).sum

/-- pivot_table with its default dropna: rows with a null grouping key are
excluded from the pivot. -/
def keyedRows (rows : List ORow) : List ORow :=
  rows.filter (fun r => r.brand.isSome && r.fstate.isSome && r.sstate.isSome)

def rowKey (r : ORow) : String × String × String :=
  (r.brand.getD "", r.fstate.getD "", r.sstate.getD "")

def pivotKeys (rows : List ORow) : List (String × String × String) :=
  ((keyedRows rows).map rowKey).dedup

def groupRows (rows : List ORow) (k : String × String × String) : List ORow :=
  (keyedRows rows).filter (fun r => rowKey r == k)

/-- One row of the detailed pivot with its Grand Total column. -/
structure PivotRow where
  brand : String
  fstate : String
  sstate : String
  nonRis : Int
  ris : Int
  gt : Int
deriving DecidableEq

/-- detailed_pivot plus its Grand Total column (app1.py lines 138-148):
per (brand, fulfillment state, ship state) group the shipped quantity is
summed split by status, and the Grand Total column is the row sum over
the status columns, hence the whole group quantity. -/
def leafPivot (rows : List ORow) : List PivotRow :=
  (pivotKeys rows).map (fun k =>
    { brand := k.1, fstate := k.2.1, sstate := k.2.2,
      nonRis := sumBy ((groupRows rows k).filter (fun r => r.status == "Non RIS")) (fun r => r.qty),
      ris := sumBy ((groupRows rows k).filter (fun r => r.status == "RIS")) (fun r => r.qty),
      gt := sumBy (groupRows rows k) (fun r => r.qty) })

def brandKeys (rows : List ORow) : List String :=
  ((leafPivot rows).map (fun p => p.brand)).dedup

/-- brand_totals (app1.py line 151): column-wise sums of the leaf pivot
(including its Grand Total column) grouped by brand. -/
def brandTotal (rows : List ORow) (b : String) : Int × Int × Int :=
  let l := (leafPivot rows).filter (fun p => p.brand == b)
  (sumBy l (fun p => p.nonRis), sumBy l (fun p => p.ris), sumBy l (fun p => p.gt))

def stateKeys (rows : List ORow) : List (String × String) :=
  ((leafPivot rows).map (fun p => (p.brand, p.fstate))).dedup

/-- state_totals (app1.py line 155): column-wise sums of the leaf pivot
grouped by brand and fulfillment state. -/
def stateTotal (rows : List ORow) (bf : String × String) : Int × Int × Int :=
  let l := (leafPivot rows).filter (fun p => (p.brand, p.fstate) == bf)
  (sumBy l (fun p => p.nonRis), sumBy l (fun p => p.ris), sumBy l (fun p => p.gt))

/-- grand_total (app1.py line 163): column-wise sum of the whole leaf
pivot. -/
def grandTotalRow (rows : List ORow) : Int × Int × Int :=
  (sumBy (leafPivot rows) (fun p => p.nonRis), sumBy (leafPivot rows) (fun p => p.ris),
   sumBy (leafPivot rows) (fun p => p.gt))

/-- The value of one float cell produced by dividing integer columns:
a finite rational, an infinity (n/0 with nonzero n), or NaN (0/0). -/
inductive PVal
  | fin (q : ℚ)
  | inf
  | nan
deriving DecidableEq

/-- Pandas element-wise division of integer series. -/
def pandasDiv (num den : Int) : PVal :=
  if den = 0 then (if num = 0 then .nan else .inf) else .fin ((num : ℚ) / (den : ℚ))

/-- Series.fillna(0): replaces NaN and leaves everything else, infinities
included, alone. -/
def fillna0 : PVal → PVal
  | .nan => .fin 0
  | v => v

/-- One row of a brand-level summary with its percentage columns. -/
structure BRow where
  brand : String
  nonRis : Int
  ris : Int
  gt : Int
  nonPct : PVal
  risPct : PVal
deriving DecidableEq

/-- Build one brand-summary row from the rows of its group: the status
sums, the Grand Total margin (the whole group quantity), and the two
fillna(0)-guarded percentage columns. -/
def mkBRow (b : String) (g : List ORow) : BRow :=
  let non := sumBy (g.filter (fun r => r.status == "Non RIS")) (fun r => r.qty)
  let ris := sumBy (g.filter (fun r => r.status == "RIS")) (fun r => r.qty)
  let gt := sumBy g (fun r => r.qty)
  ⟨b, non, ris, gt, fillna0 (pandasDiv non gt), fillna0 (pandasDiv ris gt)⟩

/-- The rows a brand-level pivot keeps: pivot_table dropna excludes rows
with a null Brand key. -/
def brandRows (rows : List ORow) : List ORow := rows.filter (fun r => r.brand.isSome)

def summaryBrandKeys (rows : List ORow) : List String :=
  ((brandRows rows).filterMap (fun r => r.brand)).dedup

/-- brand_summary (app1.py lines 267-279): per-brand rows plus the margins
Grand Total row, each with the Grand Total column and the percentage
columns.  The same construction models inventory_brand_summary (lines
236-264), whose ensure-columns and reorder steps do not change any value. -/
def brand_summary (rows : List ORow) : List BRow :=
  ((summaryBrandKeys rows).map (fun b =>
    mkBRow b ((brandRows rows).filter (fun r => r.brand == some b))))
    ++ [mkBRow "Grand Total" (brandRows rows)]

/-- b is a with some (possibly internal) ordinary spaces replaced by
no-break spaces: the difference kind named by the claim about the join
key normalization. -/
def spaceSwapCheck : List Char → List Char → Bool
  | [], [] => true
  | c :: cs, d :: ds => (c == d || (c == ' ' && d == '\xa0')) && spaceSwapCheck cs ds
  | _, _ => false


/-- Sample dataset used to instantiate the aggregation theorems. -/
def sampleRows : List ORow :=
  [⟨some "A", some "Delhi", some "Delhi", "RIS", 10⟩,
   ⟨some "A", some "Delhi", some "Haryana", "Non RIS", 5⟩,
   ⟨some "B", some "Karnataka", some "Kerala", "Non RIS", 3⟩]

/-- An order line carrying a blank (but present) brand key. -/
def blankBrandRow : ORow := ⟨some "", some "Delhi", some "Agra", "RIS", 2⟩

/- ------------------------------------------------------------------
   Character-level lemmas.
   ------------------------------------------------------------------ -/

theorem lookup_mem {α β : Type _} [BEq α] [LawfulBEq α] :
    ∀ {l : List (α × β)} {a : α} {b : β}, l.lookup a = some b → (a, b) ∈ l := by
  intro l
  induction l with
  | nil => intro a b h; simp [List.lookup] at h
  | cons p ps ih =>
    intro a b h
    rw [List.lookup] at h
    by_cases hk : a == p.1
    · rw [hk] at h
      cases h
      have : a = p.1 := by simpa using hk
      subst this
      exact List.mem_cons_self _ _
    · rw [Bool.of_not_eq_true hk] at h
      exact List.mem_cons_of_mem _ (ih h)

theorem asciiUpper_space (c : Char) : pyIsSpace (asciiUpper c) = pyIsSpace c := by
  unfold asciiUpper
  cases h : lowerUpperPairs.lookup c with
  | none => rfl
  | some u =>
    have hm : (c, u) ∈ lowerUpperPairs := lookup_mem h
    have hall : ∀ p ∈ lowerUpperPairs, pyIsSpace p.1 = false ∧ pyIsSpace p.2 = false := by decide
    have := hall _ hm
    simp [this.1, this.2]

theorem asciiLower_space (c : Char) : pyIsSpace (asciiLower c) = pyIsSpace c := by
  unfold asciiLower
  cases h : upperLowerPairs.lookup c with
  | none => rfl
  | some u =>
    have hm : (c, u) ∈ upperLowerPairs := lookup_mem h
    have hall : ∀ p ∈ upperLowerPairs, pyIsSpace p.1 = false ∧ pyIsSpace p.2 = false := by decide
    have := hall _ hm
    simp [this.1, this.2]

theorem asciiUpper_asciiLower (c : Char) : asciiUpper (asciiLower c) = asciiUpper c := by
  unfold asciiLower
  cases h : upperLowerPairs.lookup c with
  | none => rfl
  | some u =>
    have hm : (c, u) ∈ upperLowerPairs := lookup_mem h
    have hall : ∀ p ∈ upperLowerPairs, asciiUpper p.2 = asciiUpper p.1 := by decide
    simpa using hall _ hm

theorem word_not_space {c : Char} (h : pyIsSpace c = true) : isWordChar c = false := by
  unfold pyIsSpace at h
  simp only [Bool.or_eq_true, beq_iff_eq] at h
  rcases h with (((((((h | h) | h) | h) | h) | h) | h) | h) <;> subst h <;> decide

theorem not_space_ne {c : Char} (h : pyIsSpace c = false) : (c != ' ') = true := by
  rcases eq_or_ne c ' ' with rfl | hne
  · simp [pyIsSpace] at h
  · simpa using hne

theorem word_lowerFix_not {c : Char} (h : pyIsSpace c = true) :
    isWordChar (asciiLower (nbspFix c)) = false := by
  unfold pyIsSpace at h
  simp only [Bool.or_eq_true, beq_iff_eq] at h
  rcases h with (((((((h | h) | h) | h) | h) | h) | h) | h) <;> subst h <;> decide

/- ------------------------------------------------------------------
   List-level lemmas about strip, collapse, and filter.
   ------------------------------------------------------------------ -/

theorem filter_dropWhile {q p : Char → Bool} :
    ∀ {l : List Char}, (∀ c ∈ l, q c = true → p c = false) →
      (l.dropWhile q).filter p = l.filter p := by
  intro l
  induction l with
  | nil => intro _; rfl
  | cons c cs ih =>
    intro h
    rw [List.dropWhile_cons]
    by_cases hc : q c
    · have hp : p c = false := h c (List.mem_cons_self _ _) hc
      simp only [hc, if_true]
      rw [ih (fun x hx => h x (List.mem_cons_of_mem _ hx))]
      simp [List.filter_cons, hp]
    · simp [hc]

theorem dropTrailWhile_eq_nil {q : Char → Bool} :
    ∀ {l : List Char}, dropTrailWhile q l = [] → ∀ c ∈ l, q c = true := by
  intro l
  induction l with
  | nil => intro _ c hc; simp at hc
  | cons a as ih =>
    intro h c hc
    rw [dropTrailWhile] at h
    by_cases hnil : (dropTrailWhile q as).isEmpty && q a
    · rw [if_pos hnil] at h
      simp only [Bool.and_eq_true, List.isEmpty_iff] at hnil
      rcases List.mem_cons.mp hc with rfl | hc2
      · exact hnil.2
      · exact ih hnil.1 c hc2
    · rw [if_neg hnil] at h
      simp at h

theorem mem_dropTrailWhile {q : Char → Bool} {c : Char} :
    ∀ {l : List Char}, c ∈ dropTrailWhile q l → c ∈ l := by
  intro l
  induction l with
  | nil => intro h; simp [dropTrailWhile] at h
  | cons a as ih =>
    intro h
    rw [dropTrailWhile] at h
    by_cases hnil : (dropTrailWhile q as).isEmpty && q a
    · rw [if_pos hnil] at h; simp at h
    · rw [if_neg hnil] at h
      rcases List.mem_cons.mp h with rfl | h2
      · exact List.mem_cons_self _ _
      · exact List.mem_cons_of_mem _ (ih h2)

theorem filter_dropTrailWhile {q p : Char → Bool} :
    ∀ {l : List Char}, (∀ c ∈ l, q c = true → p c = false) →
      (dropTrailWhile q l).filter p = l.filter p := by
  intro l
  induction l with
  | nil => intro _; rfl
  | cons c cs ih =>
    intro h
    have hcs : (dropTrailWhile q cs).filter p = cs.filter p :=
      ih (fun x hx => h x (List.mem_cons_of_mem _ hx))
    rw [dropTrailWhile]
    by_cases hnil : (dropTrailWhile q cs).isEmpty && q c
    · rw [if_pos hnil]
      simp only [Bool.and_eq_true, List.isEmpty_iff] at hnil
      have hp : p c = false := h c (List.mem_cons_self _ _) hnil.2
      have hcsnil : cs.filter p = [] := by
        rw [← hcs, hnil.1]
        exact List.filter_nil p
      simp only [List.filter_cons, hp, hcsnil, List.filter_nil, if_false, Bool.false_eq_true]
    · rw [if_neg hnil]
      simp only [List.filter_cons, hcs]

theorem filter_pyStripL {p : Char → Bool} {l : List Char}
    (h : ∀ c ∈ l, pyIsSpace c = true → p c = false) :
    (pyStripL l).filter p = l.filter p := by
  unfold pyStripL
  rw [filter_dropTrailWhile, filter_dropWhile h]
  intro c hc hq
  exact h c (List.dropWhile_subset _ hc) hq

theorem dropTrailWhile_append {q : Char → Bool} {w : List Char}
    (hw : ∀ c ∈ w, q c = true) :
    ∀ l : List Char, dropTrailWhile q (l ++ w) = dropTrailWhile q l := by
  intro l
  induction l with
  | nil =>
    simp only [List.nil_append, dropTrailWhile]
    induction w with
    | nil => rfl
    | cons a as ihw =>
      rw [dropTrailWhile]
      have ha : q a = true := hw a (List.mem_cons_self _ _)
      have has : dropTrailWhile q as = [] := ihw (fun c hc => hw c (List.mem_cons_of_mem _ hc))
      simp [has, ha]
  | cons c cs ih =>
    rw [List.cons_append, dropTrailWhile, dropTrailWhile, ih]

theorem dropTrailWhile_map {q : Char → Bool} {f : Char → Char} :
    ∀ l : List Char, dropTrailWhile q (l.map f) = (dropTrailWhile (fun c => q (f c)) l).map f := by
  intro l
  induction l with
  | nil => rfl
  | cons c cs ih =>
    rw [List.map_cons, dropTrailWhile, dropTrailWhile, ih]
    by_cases hnil : dropTrailWhile (fun x => q (f x)) cs = []
    · rw [hnil]
      by_cases hq : q (f c) <;> simp [hq]
    · have h1 : ((dropTrailWhile (fun x => q (f x)) cs).map f).isEmpty = false := by
        simp [List.isEmpty_iff, hnil]
      have h2 : (dropTrailWhile (fun x => q (f x)) cs).isEmpty = false := by
        simp [List.isEmpty_iff, hnil]
      rw [h1, h2]
      simp

theorem collapse_filter :
    ∀ (b : Bool) (l : List Char),
      (collapseAux b l).filter (fun c => c != ' ') = l.filter (fun c => !(pyIsSpace c)) := by
  intro b l
  induction l generalizing b with
  | nil => rfl
  | cons c cs ih =>
    rw [collapseAux]
    by_cases hc : pyIsSpace c
    · cases b with
      | true => simp [hc, List.filter_cons, ih]
      | false => simp [hc, List.filter_cons, ih]
    · have hc2 : pyIsSpace c = false := by simpa using hc
      have hne := not_space_ne hc2
      simp [List.filter_cons, hc2, hne, ih]

theorem mem_collapse {c : Char} :
    ∀ {b : Bool} {l : List Char}, c ∈ collapseAux b l → pyIsSpace c = true → c = ' ' := by
  intro b l
  induction l generalizing b with
  | nil => intro h; simp [collapseAux] at h
  | cons a as ih =>
    intro h hsp
    rw [collapseAux] at h
    by_cases ha : pyIsSpace a
    · simp only [ha, if_true] at h
      cases b with
      | true => exact ih h hsp
      | false =>
        rcases List.mem_cons.mp h with rfl | h2
        · rfl
        · exact ih h2 hsp
    · simp only [ha, if_false] at h
      rcases List.mem_cons.mp h with rfl | h2
      · rw [hsp] at ha; simp at ha
      · exact ih h2 hsp

theorem dropWhile_all {q : Char → Bool} {w : List Char} (hw : ∀ c ∈ w, q c = true) :
    w.dropWhile q = [] := by
  induction w with
  | nil => rfl
  | cons a as ih =>
    rw [List.dropWhile_cons, if_pos (hw a (List.mem_cons_self _ _))]
    exact ih (fun c hc => hw c (List.mem_cons_of_mem _ hc))

theorem pyStripL_append_right {w : List Char} (hw : ∀ c ∈ w, pyIsSpace c = true)
    (l : List Char) : pyStripL (l ++ w) = pyStripL l := by
  unfold pyStripL
  rw [List.dropWhile_append]
  by_cases hnil : (l.dropWhile pyIsSpace).isEmpty
  · rw [if_pos hnil, dropWhile_all hw]
    rw [List.isEmpty_iff] at hnil
    rw [hnil]
  · rw [if_neg hnil, dropTrailWhile_append hw]

theorem pyStripL_append_left {w : List Char} (hw : ∀ c ∈ w, pyIsSpace c = true)
    (l : List Char) : pyStripL (w ++ l) = pyStripL l := by
  unfold pyStripL
  rw [List.dropWhile_append_of_pos hw]

theorem pyStripL_pad {w1 w2 : List Char} (h1 : ∀ c ∈ w1, pyIsSpace c = true)
    (h2 : ∀ c ∈ w2, pyIsSpace c = true) (l : List Char) :
    pyStripL (w1 ++ l ++ w2) = pyStripL l := by
  rw [List.append_assoc, pyStripL_append_left h1, pyStripL_append_right h2]

theorem pyStripL_map {f : Char → Char} (hf : ∀ c, pyIsSpace (f c) = pyIsSpace c)
    (l : List Char) : pyStripL (l.map f) = (pyStripL l).map f := by
  unfold pyStripL
  have hq : (fun c => pyIsSpace (f c)) = pyIsSpace := funext hf
  rw [List.dropWhile_map, dropTrailWhile_map]
  have : (fun c => pyIsSpace (f c)) = (pyIsSpace ∘ f) := rfl
  rw [← this, hq]

/- ------------------------------------------------------------------
   Characterization of normalize_text: the steps amount to keeping the
   word characters of the NBSP-fixed, lowercased text, in order.
   ------------------------------------------------------------------ -/

theorem normalizeTextStr_eq (s : String) :
    normalizeTextStr s =
      String.mk ((s.data.map (fun c => asciiLower (nbspFix c))).filter isWordChar) := by
  have hunfold : normalizeTextStr s = String.mk
      ((pyStripL (collapseAux false
        ((pyStripL ((s.data.map nbspFix).map asciiLower)).filter
          (fun c => isWordChar c || pyIsSpace c)))).filter (fun c => c != ' ')) := rfl
  rw [hunfold]
  apply congrArg String.mk
  set L2 := (s.data.map nbspFix).map asciiLower with hL2
  set L4 := (pyStripL L2).filter (fun c => isWordChar c || pyIsSpace c) with hL4
  have h1 : (pyStripL (collapseAux false L4)).filter (fun c => c != ' ')
      = (collapseAux false L4).filter (fun c => c != ' ') := by
    apply filter_pyStripL
    intro c hc hsp
    have hc2 : c = ' ' := mem_collapse hc hsp
    subst hc2
    rfl
  rw [h1, collapse_filter, hL4, List.filter_filter]
  have h2 : (fun a => !pyIsSpace a && (isWordChar a || pyIsSpace a)) = isWordChar := by
    funext c
    by_cases h : pyIsSpace c
    · simp [h, word_not_space h]
    · have h3 : pyIsSpace c = false := by simpa using h
      simp [h3]
  rw [h2]
  have h4 : (pyStripL L2).filter isWordChar = L2.filter isWordChar := by
    apply filter_pyStripL
    intro c _ hsp
    exact word_not_space hsp
  rw [h4, hL2, List.map_map]
  rfl

theorem normalizeTextStr_strip (s : String) :
    normalizeTextStr (pyStrip s) = normalizeTextStr s := by
  rw [normalizeTextStr_eq, normalizeTextStr_eq]
  apply congrArg String.mk
  have hdata : (pyStrip s).data = pyStripL s.data := rfl
  rw [hdata, List.filter_map, List.filter_map]
  apply congrArg (List.map (fun c => asciiLower (nbspFix c)))
  apply filter_pyStripL
  intro c _ hsp
  exact word_lowerFix_not hsp

/- ------------------------------------------------------------------
   The canonical-map invariant: every value of canon_map normalizes
   back to its own key.
   ------------------------------------------------------------------ -/

theorem canon_map_entry {states : List String} :
    ∀ p ∈ canon_map states, normalizeTextStr p.2 = p.1 := by
  have main : ∀ (sts : List String) (init : List (String × String)),
      (∀ p ∈ init, normalizeTextStr p.2 = p.1) →
      ∀ p ∈ sts.foldl (fun m s => if normalizeTextStr s = "" then m
          else dictInsert m (normalizeTextStr s) (pyStrip s)) init,
        normalizeTextStr p.2 = p.1 := by
    intro sts
    induction sts with
    | nil => intro init hinit p hp; exact hinit p hp
    | cons s ss ih =>
      intro init hinit p hp
      rw [List.foldl_cons] at hp
      refine ih _ ?_ p hp
      by_cases hs : normalizeTextStr s = ""
      · rw [if_pos hs]; exact hinit
      · rw [if_neg hs]
        intro q hq
        unfold dictInsert at hq
        rcases List.mem_append.mp hq with h1 | h2
        · exact hinit q (List.mem_of_mem_filter h1)
        · have hq2 : q = (normalizeTextStr s, pyStrip s) := by simpa using h2
          subst hq2
          exact normalizeTextStr_strip s
  intro p hp
  exact main states [] (by intro q hq; simp at hq) p hp

theorem dictGet_entry {m : List (String × String)} {k v : String}
    (hm : ∀ p ∈ m, normalizeTextStr p.2 = p.1) (h : dictGet m k = some v) :
    normalizeTextStr v = k := by
  unfold dictGet at h
  cases hf : m.find? (fun p => p.1 == k) with
  | none => rw [hf] at h; simp at h
  | some pr =>
    rw [hf] at h
    simp only [Option.map] at h
    have hp1 := List.find?_some hf
    have hpm : pr ∈ m := List.mem_of_find?_eq_some hf
    have hk : pr.1 = k := by simpa using hp1
    have hv : pr.2 = v := by injection h
    rw [← hv, hm pr hpm, hk]

/-- Claim C8: safe_correct is idempotent for every canonical map built by
canon_map: correcting an already-corrected value changes nothing, because
every canonical value normalizes back to its own key. -/
theorem risC8_safe_correct_idempotent (x : Option String) (states : List String) :
    safe_correct (safe_correct x (canon_map states)) (canon_map states)
      = safe_correct x (canon_map states) := by
  have hm := @canon_map_entry states
  cases h : dictGet (canon_map states) (normalize_text x) with
  | none =>
    have hx : safe_correct x (canon_map states) = x := by
      unfold safe_correct
      rw [h]
    rw [hx]
    exact hx
  | some v =>
    have hx : safe_correct x (canon_map states) = some v := by
      unfold safe_correct
      rw [h]
    have hv : normalizeTextStr v = normalize_text x := dictGet_entry hm h
    have hscv : safe_correct (some v) (canon_map states) = some v := by
      unfold safe_correct
      have h2 : normalize_text (some v) = normalize_text x := hv
      rw [h2, h]
    rw [hx, hscv]

/-- Claim C10: the correction step never changes the normalized class of a
value: normalize_text of safe_correct(raw, canon_map states) equals
normalize_text raw, whether or not a correction fires. -/
theorem risC10_correction_preserves_class (raw : Option String) (states : List String) :
    normalize_text (safe_correct raw (canon_map states)) = normalize_text raw := by
  have hm := @canon_map_entry states
  cases h : dictGet (canon_map states) (normalize_text raw) with
  | none =>
    have hx : safe_correct raw (canon_map states) = raw := by
      unfold safe_correct
      rw [h]
    rw [hx]
  | some v =>
    have hx : safe_correct raw (canon_map states) = some v := by
      unfold safe_correct
      rw [h]
    have hv : normalizeTextStr v = normalize_text raw := dictGet_entry hm h
    rw [hx]
    exact hv

/-- Claim C1 counterexample: an order line whose ship state and fulfillment
state are both missing has both cells stringify to "nan", so the state-match
rule classifies it RIS, not Non RIS as the claim requires whenever the
fulfillment state is null. -/
theorem risC1_counterexample : risStatus none none = "RIS" := by decide

/-- Claim C1 (amended): the state-match rule returns RIS exactly when the
stringified values (null prints as "nan") agree after strip and space
removal, case-sensitively; with a null fulfillment state the result is
Non RIS exactly when the normalized ship state differs from "nan" - in
particular a null or missing ship state against a null fulfillment state
yields RIS. -/
theorem risC1_amended (ship fulf : Option String) :
    (risStatus ship fulf = "RIS" ↔ normCompare (pyStr ship) = normCompare (pyStr fulf)) ∧
    (risStatus ship none = "Non RIS" ↔ normCompare (pyStr ship) ≠ "nan") := by
  constructor
  · constructor
    · intro hr
      by_contra hne
      unfold risStatus at hr
      rw [if_neg hne] at hr
      exact absurd hr (by decide)
    · intro he
      unfold risStatus
      rw [if_pos he]
  · have hnan : normCompare (pyStr (none : Option String)) = "nan" := by decide
    constructor
    · intro hr heq
      unfold risStatus at hr
      rw [hnan] at hr
      rw [if_pos heq] at hr
      exact absurd hr (by decide)
    · intro hne
      unfold risStatus
      rw [hnan, if_neg hne]

/-- Claim C2 counterexample: the join does produce fulfillment state
"Delhi" for fulfillment-center-id "ded3", but the ship state " delhi " is
classified Non RIS, not RIS: the state-match comparison is case-sensitive
and uses the uncorrected original ship state. -/
theorem risC2_counterexample :
    fcLookupStates (some "ded3") [⟨some "DED3", some "Delhi", some "North"⟩] = [some "Delhi"] ∧
    risStatus (some " delhi ") (some "Delhi") = "Non RIS" := ⟨by decide, by decide⟩

/-- Claim C2 (amended): for an order with fulfillment-center-id "ded3"
joined against the FC row ("DED3", "Delhi"), the fulfillment state becomes
"Delhi"; a ship state of " delhi " is then classified Non RIS (the compare
is case-sensitive), a ship state of " Delhi " is classified RIS (strip and
space removal do apply), and "Haryana" is classified Non RIS. -/
theorem risC2_amended :
    fcLookupStates (some "ded3") [⟨some "DED3", some "Delhi", some "North"⟩] = [some "Delhi"] ∧
    risStatus (some " delhi ") (some "Delhi") = "Non RIS" ∧
    risStatus (some " Delhi ") (some "Delhi") = "RIS" ∧
    risStatus (some "Haryana") (some "Delhi") = "Non RIS" :=
  ⟨by decide, by decide, by decide, by decide⟩

/-- Claim C4 counterexample: a receive centre differing from the mapping
key "DED3" only by case is classified Non RIS while the key itself is
classified RIS with the same fulfillment center, so the receive-centre
membership test is not case-insensitive. -/
theorem risC4_counterexample :
    ris_status_from_ixd (some "ded3") (some "DEL4") = "Non RIS" ∧
    ris_status_from_ixd (some "DED3") (some "DEL4") = "RIS" := ⟨by decide, by decide⟩

/-- Claim C4 (amended): only the fulfillment-center side of the local
mapping rule is trimmed and case-insensitive - two fulfillment-center ids
with the same stripped uppercase form always classify alike - while the
receive centre is matched against the mapping keys exactly and
case-sensitively, so "ded3" yields Non RIS where "DED3" yields RIS. -/
theorem risC4_amended :
    (∀ (rc : Option String) (s t : String), fcNormalize (some s) = fcNormalize (some t) →
      ris_status_from_ixd rc (some s) = ris_status_from_ixd rc (some t)) ∧
    ris_status_from_ixd (some "DED3") (some " del4 ") = "RIS" ∧
    ris_status_from_ixd (some "ded3") (some "DEL4") = "Non RIS" := by
  refine ⟨?_, by decide, by decide⟩
  intro rc s t h
  unfold ris_status_from_ixd
  rw [h]

theorem risC4_amended_w :
    ris_status_from_ixd (some "DED3") (some " del4 ")
      = ris_status_from_ixd (some "DED3") (some "DEL4") :=
  risC4_amended.1 (some "DED3") " del4 " "DEL4" (by decide)

/-- Claim C9: when the Working key column is present and the FC table
misses required columns, the run stops with an error naming exactly the
missing required columns, before any join or classification output is
produced; an FC table lacking only Cluster reports exactly Cluster. -/
theorem risC9_schema (wCols fcCols : List String) (working : List RawRow)
    (fcrows : List FCRow) (hw : wCols.contains "fulfillment-center-id" = true)
    (hmiss : missingFrom fcCols ≠ []) :
    runPipeline wCols fcCols working fcrows = .error (.fcMissingCols (missingFrom fcCols)) ∧
    (∀ c ∈ required_cols, c ∉ fcCols → c ∈ missingFrom fcCols) ∧
    missingFrom ["FC", "State"] = ["Cluster"] := by
  refine ⟨?_, ?_, by decide⟩
  · unfold runPipeline
    rw [hw]
    rw [if_neg (by decide), if_neg hmiss]
  · intro c hc hnotin
    unfold missingFrom
    rw [List.mem_filter]
    exact ⟨hc, decide_eq_true hnotin⟩

theorem risC9_schema_w :
    runPipeline ["fulfillment-center-id"] ["FC", "State"] [] [] =
      .error (.fcMissingCols (missingFrom ["FC", "State"])) ∧
    (∀ c ∈ required_cols, c ∉ (["FC", "State"] : List String) → c ∈ missingFrom ["FC", "State"]) ∧
    missingFrom ["FC", "State"] = ["Cluster"] :=
  risC9_schema ["fulfillment-center-id"] ["FC", "State"] [] [] (by decide) (by decide)

/-- Claim C7 counterexample: "A B" and "A B"-with-NBSP differ only by a
non-breaking space standing in for a regular space, yet their join-key
normalizations differ: the normalization strips only at the ends and
leaves internal characters alone. -/
theorem risC7_counterexample :
    spaceSwapCheck "A B".data "A\xa0B".data = true ∧
    joinNormalize "A B" ≠ joinNormalize "A\xa0B" := ⟨by decide, by decide⟩

/-- Claim C7 (amended): the join-key normalization is invariant under
leading and trailing whitespace padding (non-breaking spaces included)
and under letter case, but not under replacing an internal space by a
non-breaking space. -/
theorem risC7_amended :
    (∀ (s : String) (w1 w2 : List Char),
      (∀ c ∈ w1, pyIsSpace c = true) → (∀ c ∈ w2, pyIsSpace c = true) →
      joinNormalize (String.mk (w1 ++ s.data ++ w2)) = joinNormalize s) ∧
    (∀ a b : String, a.data.map asciiLower = b.data.map asciiLower →
      joinNormalize a = joinNormalize b) := by
  constructor
  · intro s w1 w2 h1 h2
    unfold joinNormalize
    have hd : (String.mk (w1 ++ s.data ++ w2)).data = w1 ++ s.data ++ w2 := rfl
    rw [hd, pyStripL_pad h1 h2]
  · intro a b hab
    unfold joinNormalize
    have hup : ∀ l : List Char,
        (pyStripL (l.map asciiLower)).map asciiUpper = (pyStripL l).map asciiUpper := by
      intro l
      rw [pyStripL_map asciiLower_space, List.map_map]
      have hcomp : asciiUpper ∘ asciiLower = asciiUpper := funext asciiUpper_asciiLower
      rw [hcomp]
    have key : (pyStripL a.data).map asciiUpper = (pyStripL b.data).map asciiUpper := by
      calc (pyStripL a.data).map asciiUpper
          = (pyStripL (a.data.map asciiLower)).map asciiUpper := (hup a.data).symm
        _ = (pyStripL (b.data.map asciiLower)).map asciiUpper := by rw [hab]
        _ = (pyStripL b.data).map asciiUpper := hup b.data
    rw [key]

theorem risC7_amended_w :
    joinNormalize (String.mk ([' '] ++ "ab".data ++ [' '])) = joinNormalize "ab" ∧
    joinNormalize "ab" = joinNormalize "AB" :=
  ⟨risC7_amended.1 "ab" [' '] [' '] (by decide) (by decide),
   risC7_amended.2 "ab" "AB" (by decide)⟩

/- ------------------------------------------------------------------
   Sum lemmas for the aggregation layer.
   ------------------------------------------------------------------ -/

theorem sumBy_cons {α : Type _} (x : α) (l : List α) (f : α → Int) :
    sumBy (x :: l) f = f x + sumBy l f := by
  simp [sumBy]

theorem sumBy_split {α : Type _} (p : α → Bool) (f : α → Int) :
    ∀ l : List α, sumBy l f = sumBy (l.filter p) f + sumBy (l.filter (fun x => !(p x))) f := by
  intro l
  induction l with
  | nil => rfl
  | cons x xs ih =>
    cases hp : p x with
    | false =>
      rw [sumBy_cons, List.filter_cons_of_neg (by simp [hp]),
        List.filter_cons_of_pos (by simp [hp]), sumBy_cons, ih]
      ring
    | true =>
      rw [sumBy_cons, List.filter_cons_of_pos (by simp [hp]),
        List.filter_cons_of_neg (by simp [hp]), sumBy_cons, ih]
      ring

theorem sumBy_congr {α : Type _} {f g : α → Int} :
    ∀ {l : List α}, (∀ x ∈ l, f x = g x) → sumBy l f = sumBy l g := by
  intro l
  induction l with
  | nil => intro _; rfl
  | cons x xs ih =>
    intro h
    rw [sumBy_cons, sumBy_cons, h x (List.mem_cons_self _ _),
      ih (fun y hy => h y (List.mem_cons_of_mem _ hy))]

theorem sumBy_add {α : Type _} (f g : α → Int) :
    ∀ l : List α, sumBy l (fun x => f x + g x) = sumBy l f + sumBy l g := by
  intro l
  induction l with
  | nil => rfl
  | cons x xs ih =>
    rw [sumBy_cons, sumBy_cons, sumBy_cons, ih]
    ring

theorem sumBy_nonneg {α : Type _} {f : α → Int} :
    ∀ {l : List α}, (∀ x ∈ l, 0 ≤ f x) → 0 ≤ sumBy l f := by
  intro l
  induction l with
  | nil => intro _; simp [sumBy]
  | cons x xs ih =>
    intro h
    rw [sumBy_cons]
    have h1 := h x (List.mem_cons_self _ _)
    have h2 := ih (fun y hy => h y (List.mem_cons_of_mem _ hy))
    omega

theorem sumBy_filter_le {α : Type _} (p : α → Bool) {f : α → Int} {l : List α}
    (h : ∀ x ∈ l, 0 ≤ f x) : sumBy (l.filter p) f ≤ sumBy l f := by
  have hs := sumBy_split p f l
  have h2 : 0 ≤ sumBy (l.filter (fun x => !(p x))) f :=
    sumBy_nonneg (fun x hx => h x (List.mem_of_mem_filter hx))
  omega

theorem sum_partition {α β : Type _} [BEq β] [LawfulBEq β] (key : α → β) (f : α → Int) :
    ∀ (ks : List β) (l : List α), ks.Nodup → (∀ x ∈ l, key x ∈ ks) →
      (ks.map (fun b => sumBy (l.filter (fun x => key x == b)) f)).sum = sumBy l f := by
  intro ks
  induction ks with
  | nil =>
    intro l _ hcov
    have hl : l = [] := List.eq_nil_iff_forall_not_mem.mpr (fun x hx => by simpa using hcov x hx)
    subst hl
    rfl
  | cons b ks ih =>
    intro l hnd hcov
    rw [List.map_cons, List.sum_cons]
    have hnd2 : ks.Nodup := (List.nodup_cons.mp hnd).2
    have hb : b ∉ ks := (List.nodup_cons.mp hnd).1
    set l2 := l.filter (fun x => !(key x == b)) with hl2
    have hrest : ∀ b2 ∈ ks, l.filter (fun x => key x == b2) = l2.filter (fun x => key x == b2) := by
      intro b2 hb2
      rw [hl2, List.filter_filter]
      apply List.filter_congr
      intro x _
      by_cases hx : (key x == b2) = true
      · have hkx : key x = b2 := by simpa using hx
        have hxb : (key x == b) = false := by
          rw [beq_eq_false_iff_ne]
          intro hcontra
          have hbb2 : b = b2 := by rw [← hcontra, hkx]
          exact hb (hbb2 ▸ hb2)
        rw [hx, hxb]
        rfl
      · have hx2 : (key x == b2) = false := by simpa using hx
        rw [hx2]
        simp
    have hcov2 : ∀ x ∈ l2, key x ∈ ks := by
      intro x hx
      have hxl : x ∈ l := List.mem_of_mem_filter hx
      have hxf := List.of_mem_filter hx
      have hxb : key x ≠ b := by simpa using hxf
      rcases List.mem_cons.mp (hcov x hxl) with h | h
      · exact absurd h hxb
      · exact h
    have hmap : ks.map (fun b2 => sumBy (l.filter (fun x => key x == b2)) f)
        = ks.map (fun b2 => sumBy (l2.filter (fun x => key x == b2)) f) :=
      List.map_congr_left (fun b2 hb2 => by rw [hrest b2 hb2])
    rw [hmap, ih l2 hnd2 hcov2, hl2]
    exact (sumBy_split (fun x => key x == b) f l).symm

theorem sum_partition_dedup {α β : Type _} [DecidableEq β] [BEq β] [LawfulBEq β]
    (key : α → β) (f : α → Int) (l : List α) :
    (((l.map key).dedup).map (fun b => sumBy (l.filter (fun x => key x == b)) f)).sum
      = sumBy l f :=
  sum_partition key f _ l (List.nodup_dedup _)
    (fun _ hx => List.mem_dedup.mpr (List.mem_map_of_mem key hx))

theorem leafPivot_gt_sum (rows : List ORow) :
    sumBy (leafPivot rows) (fun p => p.gt) = sumBy (keyedRows rows) (fun r => r.qty) := by
  have h := sum_partition_dedup rowKey (fun r : ORow => r.qty) (keyedRows rows)
  calc sumBy (leafPivot rows) (fun p => p.gt)
      = ((pivotKeys rows).map (fun k => sumBy (groupRows rows k) (fun r => r.qty))).sum := by
        unfold sumBy leafPivot
        rw [List.map_map]
        rfl
    _ = sumBy (keyedRows rows) (fun r => r.qty) := h

/-- Claim C3 counterexample: a single order line with a null brand and
quantity 5 vanishes entirely: the detailed pivot is empty and the brand
summary carries only a Grand Total row of 0, so the line's quantity is
dropped rather than kept in a null-brand group. -/
theorem risC3_counterexample :
    leafPivot [⟨none, some "Delhi", some "Delhi", "RIS", 5⟩] = [] ∧
    sumBy [(⟨none, some "Delhi", some "Delhi", "RIS", 5⟩ : ORow)] (fun r => r.qty) = 5 ∧
    (brand_summary [⟨none, some "Delhi", some "Delhi", "RIS", 5⟩]).map (fun r => r.gt) = [0] :=
  ⟨by decide, by decide, by decide⟩

/-- Claim C3 (amended): the pivot keeps exactly the order lines whose
three grouping keys are all present: the quantity total of the pivot
equals the quantity total of the key-complete rows, a line with any null
key is excluded, and a present-but-blank key still forms its own group. -/
theorem risC3_amended (rows : List ORow) :
    sumBy (leafPivot rows) (fun p => p.gt) = sumBy (keyedRows rows) (fun r => r.qty) ∧
    (∀ r ∈ rows, (r.brand = none ∨ r.fstate = none ∨ r.sstate = none) → r ∉ keyedRows rows) ∧
    (∀ r ∈ rows, ∀ b f s, r.brand = some b → r.fstate = some f → r.sstate = some s →
      (b, f, s) ∈ pivotKeys rows) := by
  refine ⟨leafPivot_gt_sum rows, ?_, ?_⟩
  · intro r _ hnull hmem
    have hf := List.of_mem_filter hmem
    rcases hnull with h | h | h <;> rw [h] at hf <;> simp at hf
  · intro r hr b f s hb hf hs
    unfold pivotKeys
    rw [List.mem_dedup]
    have hk : rowKey r = (b, f, s) := by
      unfold rowKey
      rw [hb, hf, hs]
      rfl
    rw [← hk]
    apply List.mem_map_of_mem
    unfold keyedRows
    rw [List.mem_filter]
    refine ⟨hr, ?_⟩
    rw [hb, hf, hs]
    rfl

theorem risC3_amended_w : ("", "Delhi", "Agra") ∈ pivotKeys [blankBrandRow] :=
  (risC3_amended [blankBrandRow]).2.2 blankBrandRow (List.mem_cons_self _ _)
    "" "Delhi" "Agra" rfl rfl rfl

theorem leaf_gt_eq (rows : List ORow)
    (h : ∀ r ∈ rows, r.status = "RIS" ∨ r.status = "Non RIS") :
    ∀ p ∈ leafPivot rows, p.gt = p.ris + p.nonRis := by
  intro p hp
  unfold leafPivot at hp
  rcases List.mem_map.mp hp with ⟨k, _, rfl⟩
  show sumBy (groupRows rows k) (fun r => r.qty)
      = sumBy ((groupRows rows k).filter (fun r => r.status == "RIS")) (fun r => r.qty)
        + sumBy ((groupRows rows k).filter (fun r => r.status == "Non RIS")) (fun r => r.qty)
  have hcong : (groupRows rows k).filter (fun r => !(r.status == "RIS"))
      = (groupRows rows k).filter (fun r => r.status == "Non RIS") := by
    apply List.filter_congr
    intro x hx
    have hxrows : x ∈ rows := List.mem_of_mem_filter (List.mem_of_mem_filter hx)
    rcases h x hxrows with hs | hs <;> rw [hs] <;> rfl
  rw [← hcong]
  exact sumBy_split (fun r => r.status == "RIS") (fun r : ORow => r.qty) (groupRows rows k)

/-- Claim C5: subtotal consistency of the detailed pivots.  For data whose
classification column only carries the two labels, every leaf row's Grand
Total equals RIS plus Non RIS; every brand subtotal's Grand Total equals
the sum of the Grand Totals of that brand's leaf rows and equals its own
RIS plus Non RIS; likewise for every (brand, fulfillment state) subtotal;
and the final Grand Total row equals the sum over all leaf rows and
equally the sum over all brand subtotals. -/
theorem risC5_subtotals (rows : List ORow)
    (h : ∀ r ∈ rows, r.status = "RIS" ∨ r.status = "Non RIS") :
    (∀ p ∈ leafPivot rows, p.gt = p.ris + p.nonRis) ∧
    (∀ b ∈ brandKeys rows,
      (brandTotal rows b).2.2
          = sumBy ((leafPivot rows).filter (fun p => p.brand == b)) (fun p => p.gt) ∧
      (brandTotal rows b).2.2 = (brandTotal rows b).2.1 + (brandTotal rows b).1) ∧
    (∀ bf ∈ stateKeys rows,
      (stateTotal rows bf).2.2
          = sumBy ((leafPivot rows).filter (fun p => (p.brand, p.fstate) == bf)) (fun p => p.gt) ∧
      (stateTotal rows bf).2.2 = (stateTotal rows bf).2.1 + (stateTotal rows bf).1) ∧
    ((grandTotalRow rows).2.2 = sumBy (leafPivot rows) (fun p => p.gt) ∧
     (grandTotalRow rows).2.2 = ((brandKeys rows).map (fun b => (brandTotal rows b).2.2)).sum ∧
     (grandTotalRow rows).2.2 = (grandTotalRow rows).2.1 + (grandTotalRow rows).1) := by
  have hleaf := leaf_gt_eq rows h
  have hsummand : ∀ l : List PivotRow, (∀ p ∈ l, p ∈ leafPivot rows) →
      sumBy l (fun p => p.gt) = sumBy l (fun p => p.ris) + sumBy l (fun p => p.nonRis) := by
    intro l hl
    calc sumBy l (fun p => p.gt)
        = sumBy l (fun p => p.ris + p.nonRis) := sumBy_congr (fun p hp => hleaf p (hl p hp))
      _ = sumBy l (fun p => p.ris) + sumBy l (fun p => p.nonRis) :=
          sumBy_add (fun p => p.ris) (fun p => p.nonRis) l
  refine ⟨hleaf, ?_, ?_, ?_, ?_, ?_⟩
  · intro b _
    exact ⟨rfl, hsummand _ (fun p hp => List.mem_of_mem_filter hp)⟩
  · intro bf _
    exact ⟨rfl, hsummand _ (fun p hp => List.mem_of_mem_filter hp)⟩
  · rfl
  · exact (sum_partition_dedup (fun p : PivotRow => p.brand) (fun p => p.gt)
      (leafPivot rows)).symm
  · exact hsummand _ (fun p hp => hp)

theorem risC5_subtotals_w :
    (∀ p ∈ leafPivot sampleRows, p.gt = p.ris + p.nonRis) ∧
    (∀ b ∈ brandKeys sampleRows,
      (brandTotal sampleRows b).2.2
          = sumBy ((leafPivot sampleRows).filter (fun p => p.brand == b)) (fun p => p.gt) ∧
      (brandTotal sampleRows b).2.2
          = (brandTotal sampleRows b).2.1 + (brandTotal sampleRows b).1) ∧
    (∀ bf ∈ stateKeys sampleRows,
      (stateTotal sampleRows bf).2.2
          = sumBy ((leafPivot sampleRows).filter (fun p => (p.brand, p.fstate) == bf))
              (fun p => p.gt) ∧
      (stateTotal sampleRows bf).2.2
          = (stateTotal sampleRows bf).2.1 + (stateTotal sampleRows bf).1) ∧
    ((grandTotalRow sampleRows).2.2 = sumBy (leafPivot sampleRows) (fun p => p.gt) ∧
     (grandTotalRow sampleRows).2.2
        = ((brandKeys sampleRows).map (fun b => (brandTotal sampleRows b).2.2)).sum ∧
     (grandTotalRow sampleRows).2.2
        = (grandTotalRow sampleRows).2.1 + (grandTotalRow sampleRows).1) :=
  risC5_subtotals sampleRows (by decide)

theorem pct_spec (n r g : Int) (h0n : 0 ≤ n) (h0r : 0 ≤ r)
    (hng : n ≤ g) (hrg : r ≤ g) :
    ∃ qn qr : ℚ,
      fillna0 (pandasDiv n g) = PVal.fin qn ∧ fillna0 (pandasDiv r g) = PVal.fin qr ∧
      0 ≤ qn ∧ qn ≤ 1 ∧ 0 ≤ qr ∧ qr ≤ 1 ∧
      (g = 0 → qn = 0 ∧ qr = 0) ∧
      (g ≠ 0 → qn = (n : ℚ) / (g : ℚ) ∧ qr = (r : ℚ) / (g : ℚ)) := by
  by_cases hg : g = 0
  · subst hg
    have hn0 : n = 0 := le_antisymm hng h0n
    have hr0 : r = 0 := le_antisymm hrg h0r
    subst hn0
    subst hr0
    exact ⟨0, 0, by decide, by decide, le_refl 0, by norm_num, le_refl 0, by norm_num,
      fun _ => ⟨rfl, rfl⟩, fun hne => absurd rfl hne⟩
  · have hgpos : (0 : Int) < g := lt_of_le_of_ne (le_trans h0n hng) (Ne.symm hg)
    have hgq : (0 : ℚ) < (g : ℚ) := by exact_mod_cast hgpos
    have hdn : pandasDiv n g = PVal.fin ((n : ℚ) / (g : ℚ)) := by
      unfold pandasDiv
      rw [if_neg hg]
    have hdr : pandasDiv r g = PVal.fin ((r : ℚ) / (g : ℚ)) := by
      unfold pandasDiv
      rw [if_neg hg]
    refine ⟨(n : ℚ) / (g : ℚ), (r : ℚ) / (g : ℚ), ?_, ?_, ?_, ?_, ?_, ?_, ?_, ?_⟩
    · rw [hdn]; rfl
    · rw [hdr]; rfl
    · exact div_nonneg (by exact_mod_cast h0n) (le_of_lt hgq)
    · exact (div_le_one hgq).mpr (by exact_mod_cast hng)
    · exact div_nonneg (by exact_mod_cast h0r) (le_of_lt hgq)
    · exact (div_le_one hgq).mpr (by exact_mod_cast hrg)
    · intro h0; exact absurd h0 hg
    · intro _; exact ⟨rfl, rfl⟩

theorem mkBRow_spec (b : String) (g : List ORow) (hg : ∀ r ∈ g, 0 ≤ r.qty) :
    ∃ qn qr : ℚ,
      (mkBRow b g).nonPct = PVal.fin qn ∧ (mkBRow b g).risPct = PVal.fin qr ∧
      0 ≤ qn ∧ qn ≤ 1 ∧ 0 ≤ qr ∧ qr ≤ 1 ∧
      ((mkBRow b g).gt = 0 → qn = 0 ∧ qr = 0) ∧
      ((mkBRow b g).gt ≠ 0 →
        qn = ((mkBRow b g).nonRis : ℚ) / ((mkBRow b g).gt : ℚ) ∧
        qr = ((mkBRow b g).ris : ℚ) / ((mkBRow b g).gt : ℚ)) := by
  have h0n : 0 ≤ sumBy (g.filter (fun r => r.status == "Non RIS")) (fun r : ORow => r.qty) :=
    sumBy_nonneg (fun x hx => hg x (List.mem_of_mem_filter hx))
  have h0r : 0 ≤ sumBy (g.filter (fun r => r.status == "RIS")) (fun r : ORow => r.qty) :=
    sumBy_nonneg (fun x hx => hg x (List.mem_of_mem_filter hx))
  have hng : sumBy (g.filter (fun r => r.status == "Non RIS")) (fun r : ORow => r.qty)
      ≤ sumBy g (fun r : ORow => r.qty) := sumBy_filter_le _ hg
  have hrg : sumBy (g.filter (fun r => r.status == "RIS")) (fun r : ORow => r.qty)
      ≤ sumBy g (fun r : ORow => r.qty) := sumBy_filter_le _ hg
  exact pct_spec _ _ _ h0n h0r hng hrg

/-- Claim C6: in the brand-level summaries every row, the margins Grand
Total row included, carries finite percentage cells lying in the unit
interval; a row with Grand Total 0 has both percentages exactly 0 (the
0/0 NaN is filled with 0), and a row with nonzero Grand Total has exactly
nonRis/grandTotal and ris/grandTotal.  Quantities are assumed
nonnegative, as shipped quantities are. -/
theorem risC6_percentages (rows : List ORow) (hq : ∀ r ∈ rows, 0 ≤ r.qty) :
    ∀ row ∈ brand_summary rows,
      ∃ qn qr : ℚ,
        row.nonPct = PVal.fin qn ∧ row.risPct = PVal.fin qr ∧
        0 ≤ qn ∧ qn ≤ 1 ∧ 0 ≤ qr ∧ qr ≤ 1 ∧
        (row.gt = 0 → qn = 0 ∧ qr = 0) ∧
        (row.gt ≠ 0 → qn = (row.nonRis : ℚ) / (row.gt : ℚ)
          ∧ qr = (row.ris : ℚ) / (row.gt : ℚ)) := by
  intro row hrow
  unfold brand_summary at hrow
  rcases List.mem_append.mp hrow with h1 | h2
  · rcases List.mem_map.mp h1 with ⟨b, _, rfl⟩
    apply mkBRow_spec
    intro r hr
    exact hq r (List.mem_of_mem_filter (List.mem_of_mem_filter hr))
  · have h3 : row = mkBRow "Grand Total" (brandRows rows) := by simpa using h2
    subst h3
    apply mkBRow_spec
    intro r hr
    exact hq r (List.mem_of_mem_filter hr)

theorem risC6_percentages_w :
    ∃ qn qr : ℚ,
      (mkBRow "Grand Total" (brandRows sampleRows)).nonPct = PVal.fin qn ∧
      (mkBRow "Grand Total" (brandRows sampleRows)).risPct = PVal.fin qr ∧
      0 ≤ qn ∧ qn ≤ 1 ∧ 0 ≤ qr ∧ qr ≤ 1 ∧
      ((mkBRow "Grand Total" (brandRows sampleRows)).gt = 0 → qn = 0 ∧ qr = 0) ∧
      ((mkBRow "Grand Total" (brandRows sampleRows)).gt ≠ 0 →
        qn = ((mkBRow "Grand Total" (brandRows sampleRows)).nonRis : ℚ)
            / ((mkBRow "Grand Total" (brandRows sampleRows)).gt : ℚ) ∧
        qr = ((mkBRow "Grand Total" (brandRows sampleRows)).ris : ℚ)
            / ((mkBRow "Grand Total" (brandRows sampleRows)).gt : ℚ)) :=
  risC6_percentages sampleRows (by decide) (mkBRow "Grand Total" (brandRows sampleRows))
    (List.mem_append_right _ (List.mem_singleton.mpr rfl))
